import Mathlib

/-!
Shallow embedding of the `RankedSequenceGraph` class of midi-pig-pen
(`src/graph/rankedSequence.ts`) together with proofs about its behaviour.

The graph stores one `Node` per distinct MIDI note value.  In JavaScript the
node store and the per-node edge stores are objects keyed by integer note
values; such objects enumerate their keys in ascending numeric order, so we
embed every keyed map as a list kept sorted in ascending `note` order and
look entries up by key.  Node-to-node references are embedded as the
referenced node's key (the `note` value), which is the arena representation
of the cyclic object graph.
-/

namespace PigPen

/-- Event subtypes of the external MIDI codec.  Only `noteOn` is relevant to
the graph; every other subtype is collapsed into representative
alternatives. -/
inductive MidiIoEventSubtype where
  | noteOn
  | noteOff
  | other
deriving DecidableEq, Repr

/-- The shape of an event as consumed by the graph: a subtype, a note number
and a timing offset. -/
structure MidiIoEvent where
  subtype : MidiIoEventSubtype
  noteNumber : Nat
  offset : Int
deriving DecidableEq, Repr

/-- A sequence as consumed by the graph: a duration and an ordered event
list. -/
structure MidiSequence where
  duration : Int
  events : List MidiIoEvent
deriving DecidableEq, Repr

/-- The `NodeReference` record of the source: an edge record holding a use count and a
reference to the neighboring node (embedded as the neighbor's note key). -/
structure NodeReference where
  count : Nat
  note : Nat
deriving DecidableEq, Repr

/-- The `Node` record of the source: per-note record with total use count, incoming and
outgoing edge maps, and the list of (event index, sequence) occurrences. -/
structure Node where
  count : Nat
  note : Nat
  pathsIn : List NodeReference
  pathsOut : List NodeReference
  sequences : List (Nat × MidiSequence)
deriving DecidableEq, Repr

/-- The graph state: the node map `_map` and the insertion log
`_insertSequence`.  The `name` field of the class plays no role in any
operation and is omitted. -/
structure RankedSequenceGraph where
  map : List Node
  insertSequence : List Nat
deriving DecidableEq, Repr

/-- Element of a ranked note list: `{count, note}`. -/
structure RankedNoteElement where
  count : Nat
  note : Nat
deriving DecidableEq, Repr

/-- The `{pathsIn, pathsOut}` record returned by `getNotePaths`. -/
structure NotePaths where
  pathsIn : List RankedNoteElement
  pathsOut : List RankedNoteElement
deriving DecidableEq, Repr

/-- A freshly created graph (`new RankedSequenceGraph(name)`). -/
def RankedSequenceGraph.empty : RankedSequenceGraph :=
  { map := [], insertSequence := [] }

/-- Key lookup in the node map (`this._map[note]`). -/
def findNode (m : List Node) (note : Nat) : Option Node :=
  m.find? (fun n => n.note == note)

/-- Key lookup in an edge map (`map[note]`). -/
def findRef (m : List NodeReference) (note : Nat) : Option NodeReference :=
  m.find? (fun r => r.note == note)

/-- Inserting a new node keeps the map in ascending key order, mirroring
JavaScript integer-key enumeration order. -/
def insertNodeSorted (nd : Node) : List Node → List Node
  | [] => [nd]
  | b :: l => if nd.note < b.note then nd :: b :: l else b :: insertNodeSorted nd l

/-- Inserting a new edge record keeps the edge map in ascending key order,
mirroring JavaScript integer-key enumeration order. -/
def insertRefSorted (r : NodeReference) : List NodeReference → List NodeReference
  | [] => [r]
  | b :: l => if r.note < b.note then r :: b :: l else b :: insertRefSorted r l

/-- In-place mutation of the node stored under a key (keys are unique in a
JavaScript object, so only the first match is touched). -/
def updateNode : List Node → Nat → (Node → Node) → List Node
  | [], _, _ => []
  | n :: m, note, f => if n.note == note then f n :: m else n :: updateNode m note f

/-- The node produced by the `_ensureMappedValue` factory of `addSequence`. -/
def freshNode (note : Nat) : Node :=
  { count := 0, note := note, pathsIn := [], pathsOut := [], sequences := [] }

/-- Embedding of `_ensureMappedValue(this._map, note, factory)`: reuse the stored node or
create a fresh one. -/
def ensureNode (m : List Node) (note : Nat) : List Node :=
  match findNode m note with
  | some _ => m
  | none => insertNodeSorted (freshNode note) m

/-- In-place `count++` on the edge record stored under a key. -/
def bumpFirst : List NodeReference → Nat → List NodeReference
  | [], _ => []
  | r :: m, note =>
    if r.note == note then { r with count := r.count + 1 } :: m else r :: bumpFirst m note

/-- Embedding of the pattern `_ensureMappedValue(map, note, factory).count++`: create
the edge record at count 0 if absent, then increment its count. -/
def bumpRef (m : List NodeReference) (note : Nat) : List NodeReference :=
  match findRef m note with
  | some _ => bumpFirst m note
  | none => insertRefSorted { count := 1, note := note } m

/-- The event filter of `addSequence`: only note-on events of the incoming
sequence are of interest. -/
def isNoteOn (e : MidiIoEvent) : Bool :=
  e.subtype == MidiIoEventSubtype.noteOn

/-- The reassignment `sequence = Object.assign({}, sequence, {events:
sequence.events.filter(...)})` of `addSequence`: a copy of the sequence whose
event list keeps only the note-on events.  This copy, not the caller's
sequence, is what gets recorded in each node's `sequences` list. -/
def filteredSequence (s : MidiSequence) : MidiSequence :=
  { duration := s.duration, events := s.events.filter isNoteOn }

/-- One iteration of `_addEventIndex`: ensure the node for the event's note,
increment its count, record the occurrence, extend the insertion log, and
(when a previous node exists) increment the symmetric pair of edge counts. -/
def addEventStep (seq : MidiSequence) (g : RankedSequenceGraph) (index : Nat)
    (event : MidiIoEvent) (prev : Option Nat) : RankedSequenceGraph :=
  let note := event.noteNumber
  let m1 := ensureNode g.map note
  let m2 := updateNode m1 note
    (fun n => { n with count := n.count + 1, sequences := n.sequences ++ [(index, seq)] })
  let m3 :=
    match prev with
    | none => m2
    | some p =>
      let mIn := updateNode m2 note (fun n => { n with pathsIn := bumpRef n.pathsIn p })
      updateNode mIn p (fun n => { n with pathsOut := bumpRef n.pathsOut note })
  { map := m3, insertSequence := g.insertSequence ++ [note] }

/-- The recursion of `_addEventIndex` over the filtered events, threading the
previously processed note. -/
def addEvents (seq : MidiSequence) :
    List (Nat × MidiIoEvent) → Option Nat → RankedSequenceGraph → RankedSequenceGraph
  | [], _, g => g
  | (index, event) :: rest, prev, g =>
    addEvents seq rest (some event.noteNumber) (addEventStep seq g index event prev)

/-- Embedding of `addSequence(sequence)`: filter to note-on events, then walk the filtered
events from index 0 with no previous node. -/
def addSequence (g : RankedSequenceGraph) (sequence : MidiSequence) : RankedSequenceGraph :=
  let seq := filteredSequence sequence
  addEvents seq seq.events.enum none g

/-- A graph built by a series of `addSequence` calls starting from the empty
graph. -/
def buildGraph (seqs : List MidiSequence) : RankedSequenceGraph :=
  seqs.foldl addSequence RankedSequenceGraph.empty

/-- Stable insertion step of lodash's `sortBy`, ascending by `key`; an
element is placed before the first element with a strictly larger key, after
every earlier element with an equal key. -/
def sortInsert {α : Type} (key : α → Int) (a : α) : List α → List α
  | [] => [a]
  | b :: l => if key a ≤ key b then a :: b :: l else b :: sortInsert key a l

/-- lodash `_.sortBy(list, key)`: a stable sort ascending by `key`. -/
def sortBy {α : Type} (key : α → Int) : List α → List α
  | [] => []
  | a :: l => sortInsert key a (sortBy key l)

/-- The sort key `node => 0 - node.count` used by the ranking queries;
ascending order by this key is descending order by count. -/
def negCount (e : RankedNoteElement) : Int :=
  0 - (e.count : Int)

/-- Embedding of `getAllNotes()`: every node projected to `{count, note}` and sorted by
`0 - count`. -/
def getAllNotes (g : RankedSequenceGraph) : List RankedNoteElement :=
  sortBy negCount (g.map.map (fun n => { count := n.count, note := n.note }))

/-- Embedding of `getInsertSequence()`: the insertion log. -/
def getInsertSequence (g : RankedSequenceGraph) : List Nat :=
  g.insertSequence

/-- The `_build` helper of `getNotePaths`: walk one edge map, drop excluded
neighbors, project to `{count, note}` and sort by `0 - count`. -/
def buildRanked (m : List NodeReference) (exclude : List Nat) : List RankedNoteElement :=
  sortBy negCount
    ((m.filter (fun r => !(exclude.contains r.note))).map
      (fun r => { count := r.count, note := r.note }))

/-- Embedding of `getNotePaths(note, exclude)`: both edge maps of the note's node ranked,
or two empty lists when the note is unknown. -/
def getNotePaths (g : RankedSequenceGraph) (note : Nat) (exclude : List Nat) : NotePaths :=
  match findNode g.map note with
  | none => { pathsIn := [], pathsOut := [] }
  | some n =>
    { pathsIn := buildRanked n.pathsIn exclude, pathsOut := buildRanked n.pathsOut exclude }

/-- Placeholder event for out-of-range indexing.  Every event index recorded
in a node's `sequences` list points inside the recorded sequence, so the
placeholder is unreachable on graph-produced states. -/
def defaultEvent : MidiIoEvent :=
  { subtype := MidiIoEventSubtype.noteOn, noteNumber := 0, offset := 0 }

/-- The truncated view built by `getSequencesForNote` when `partial` is true:
duration shortened by the offset distance from the first event to the matched
event, events sliced from the matched index on. -/
def partialView (p : Nat × MidiSequence) : MidiSequence :=
  { duration :=
      p.2.duration -
        ((p.2.events.getD p.1 defaultEvent).offset - (p.2.events.getD 0 defaultEvent).offset),
    events := p.2.events.drop p.1 }

/-- Embedding of `getSequencesForNote({note, partial})`: one result per recorded
occurrence of the note; the stored sequence itself, or its truncated view. -/
def getSequencesForNote (g : RankedSequenceGraph) (note : Nat) (isPartial : Bool) :
    List MidiSequence :=
  match findNode g.map note with
  | none => []
  | some n => n.sequences.map (fun p => if isPartial = false then p.2 else partialView p)

/-- Modelled from the spec: the `DisallowReuse` flag of the
`TraverseAttributes` bitmask.  The enum lives in `src/model`, which is not
part of the repository snapshot; §4.4 documents it as a bit flag. -/
def TraverseAttributes.DisallowReuse : Nat := 1

/-- Modelled from the spec: the `ResetAfterExhaust` flag of the
`TraverseAttributes` bitmask.  The enum lives in `src/model`, which is not
part of the repository snapshot; §4.4 documents it as a bit flag. -/
def TraverseAttributes.ResetAfterExhaust : Nat := 2

/-- The `{note, pathsIn, pathsOut}` record handed to the `next` selection
policy during traversal. -/
structure TraverseStepParam where
  note : Nat
  pathsIn : List RankedNoteElement
  pathsOut : List RankedNoteElement

/-- The `_push` recursion of `traverse`.  The first argument is the current
note (none when the previous step selected no candidate), the second the
number of steps left before `index === maxCount`, the third the mutable
`exclude` list of the closure. -/
def traverseGo (g : RankedSequenceGraph) (attributes : Nat)
    (next : TraverseStepParam → Option RankedNoteElement) :
    Option Nat → Nat → List Nat → List Nat
  | _, 0, _ => []
  | none, _ + 1, _ => []
  | some note, remaining + 1, exclude =>
    let exclude1 :=
      if attributes &&& TraverseAttributes.DisallowReuse ≠ 0 then exclude ++ [note] else exclude
    let paths := getNotePaths g note exclude1
    match next { note := note, pathsIn := paths.pathsIn, pathsOut := paths.pathsOut } with
    | some el => note :: traverseGo g attributes next (some el.note) remaining exclude1
    | none =>
      if attributes &&& TraverseAttributes.ResetAfterExhaust ≠ 0 then
        let paths2 := getNotePaths g note []
        match next { note := note, pathsIn := paths2.pathsIn, pathsOut := paths2.pathsOut } with
        | some el => note :: traverseGo g attributes next (some el.note) remaining []
        | none => note :: traverseGo g attributes next none remaining []
      else
        note :: traverseGo g attributes next none remaining exclude1

/-- Embedding of `traverse({attributes, maxCount, next, startNote})`: start `_push` at the
node stored for `startNote` with an empty exclusion list. -/
def traverse (g : RankedSequenceGraph) (attributes : Nat) (maxCount : Nat)
    (next : TraverseStepParam → Option RankedNoteElement) (startNote : Nat) : List Nat :=
  traverseGo g attributes next ((findNode g.map startNote).map (fun n => n.note)) maxCount []

/-- The incoming edge map stored at a note's node, empty when the note is
unknown. -/
def nodePathsIn (g : RankedSequenceGraph) (note : Nat) : List NodeReference :=
  match findNode g.map note with
  | none => []
  | some n => n.pathsIn

/-- The outgoing edge map stored at a note's node, empty when the note is
unknown. -/
def nodePathsOut (g : RankedSequenceGraph) (note : Nat) : List NodeReference :=
  match findNode g.map note with
  | none => []
  | some n => n.pathsOut

/-- The count stored in an edge map under a key, zero when absent. -/
def refCountD (m : List NodeReference) (note : Nat) : Nat :=
  match findRef m note with
  | none => 0
  | some r => r.count

/-- The count on the outgoing edge from note `x` to note `y`, read through
the node map; `none` when the node or the edge is absent. -/
def outCount (m : List Node) (x y : Nat) : Option Nat :=
  match findNode m x with
  | none => none
  | some n => (findRef n.pathsOut y).map (fun r => r.count)

/-- The count on the incoming edge at note `x` from note `y`, read through
the node map; `none` when the node or the edge is absent. -/
def inCount (m : List Node) (x y : Nat) : Option Nat :=
  match findNode m x with
  | none => none
  | some n => (findRef n.pathsIn y).map (fun r => r.count)

/-- Edge-count symmetry of a node map: the outgoing record from `x` to `y`
and the incoming record at `y` from `x` agree, including on absence. -/
def EdgeSymM (m : List Node) : Prop :=
  ∀ x y, outCount m x y = inCount m y x

/-- The sum of the per-node occurrence counts over a node map. -/
def sumCounts (m : List Node) : Nat :=
  (m.map (fun n => n.count)).sum

/-- The node map is kept in strictly ascending note order (the JavaScript
integer-key enumeration order). -/
def NotesSorted (m : List Node) : Prop :=
  m.Pairwise (fun a b => a.note < b.note)

/-- The occurrence list (`node.sequences`) stored for a note, empty when the
note is unknown. -/
def nodeSequencesAt (m : List Node) (note : Nat) : List (Nat × MidiSequence) :=
  match findNode m note with
  | none => []
  | some n => n.sequences

/-- The occurrences a single `addSequence(s)` call records for a note: one
entry per note-on event of `s` carrying that note, holding the index within
the filtered event list and the filtered copy of `s`. -/
def seqOccurrences (s : MidiSequence) (note : Nat) : List (Nat × MidiSequence) :=
  (((filteredSequence s).events.enum).filter (fun p => p.2.noteNumber == note)).map
    (fun p => (p.1, filteredSequence s))

/-- All occurrences recorded for a note across a series of `addSequence`
calls, in call order. -/
def noteOccurrences (seqs : List MidiSequence) (note : Nat) : List (Nat × MidiSequence) :=
  (seqs.map (fun s => seqOccurrences s note)).flatten

/-- A note-on event at a given note and offset, used by concrete scenarios. -/
def onEvent (note : Nat) (offset : Int) : MidiIoEvent :=
  { subtype := MidiIoEventSubtype.noteOn, noteNumber := note, offset := offset }

/-- A note-off event at a given note and offset, used by concrete scenarios. -/
def offEvent (note : Nat) (offset : Int) : MidiIoEvent :=
  { subtype := MidiIoEventSubtype.noteOff, noteNumber := note, offset := offset }

/-- The sequence 60, 62, 60 of note-on events: ingesting it produces a graph
whose only nodes are 60 and 62 and whose edges form the two-cycle 60↔62. -/
def twoCycleSeq : MidiSequence :=
  { duration := 3, events := [onEvent 60 0, onEvent 62 1, onEvent 60 2] }

/-- The graph holding exactly the two-cycle 60↔62. -/
def twoCycleGraph : RankedSequenceGraph :=
  buildGraph [twoCycleSeq]

/-- A selection policy that always returns the top-ranked outgoing neighbor
and gives up when the offered lists are empty. -/
def nextTopRanked (p : TraverseStepParam) : Option RankedNoteElement :=
  p.pathsOut.head?

/-- A selection policy that never selects a candidate, used by witnesses. -/
def nextNone : TraverseStepParam → Option RankedNoteElement :=
  fun _ => none

/-- A sequence mixing a note-on and a note-off event on note 60; ingesting it
records a single occurrence of note 60 whose stored sequence has lost the
note-off event. -/
def mixedSeq : MidiSequence :=
  { duration := 10, events := [onEvent 60 0, offEvent 60 5] }

/-- The graph built from `mixedSeq` alone. -/
def mixedGraph : RankedSequenceGraph :=
  buildGraph [mixedSeq]

/-- The one-note-on-event sequence used by the round-trip witness. -/
def singleOnSeq : MidiSequence :=
  { duration := 5, events := [onEvent 60 0] }

theorem mem_sortInsert {α : Type} (key : α → Int) (a x : α) (l : List α) :
    x ∈ sortInsert key a l ↔ x = a ∨ x ∈ l := by
  induction l with
  | nil => simp [sortInsert]
  | cons b l ih =>
    by_cases h : key a ≤ key b
    · simp [sortInsert, h]
    · simp [sortInsert, h, ih]
      tauto

theorem mem_sortBy {α : Type} (key : α → Int) (x : α) (l : List α) :
    x ∈ sortBy key l ↔ x ∈ l := by
  induction l with
  | nil => simp [sortBy]
  | cons a l ih =>
    rw [sortBy, mem_sortInsert]
    simp [ih]

theorem sortInsert_perm {α : Type} (key : α → Int) (a : α) (l : List α) :
    List.Perm (sortInsert key a l) (a :: l) := by
  induction l with
  | nil => exact List.Perm.refl _
  | cons b l ih =>
    by_cases h : key a ≤ key b
    · rw [sortInsert, if_pos h]
    · rw [sortInsert, if_neg h]
      exact (List.Perm.cons b ih).trans (List.Perm.swap a b l)

theorem sortBy_perm {α : Type} (key : α → Int) (l : List α) :
    List.Perm (sortBy key l) l := by
  induction l with
  | nil => exact List.Perm.refl _
  | cons a l ih =>
    rw [sortBy]
    exact (sortInsert_perm key a (sortBy key l)).trans (List.Perm.cons a ih)

theorem pairwise_sortInsert {α : Type} (key : α → Int) (q : α → α → Prop) (a : α) (l : List α)
    (hl : l.Pairwise (fun x y => key x < key y ∨ (key x = key y ∧ q x y)))
    (ha : ∀ b ∈ l, q a b) :
    (sortInsert key a l).Pairwise (fun x y => key x < key y ∨ (key x = key y ∧ q x y)) := by
  induction l with
  | nil => simp [sortInsert]
  | cons b l ih =>
    rcases List.pairwise_cons.mp hl with ⟨hb, hl2⟩
    by_cases h : key a ≤ key b
    · rw [sortInsert, if_pos h]
      refine List.Pairwise.cons ?_ hl
      intro c hc
      rcases List.mem_cons.mp hc with rfl | hc
      · rcases lt_or_eq_of_le h with h2 | h2
        · exact Or.inl h2
        · exact Or.inr ⟨h2, ha c (List.mem_cons_self ..)⟩
      · have hbc := hb c hc
        have hkey : key b ≤ key c := by
          rcases hbc with h3 | ⟨h3, _⟩
          · exact le_of_lt h3
          · exact le_of_eq h3
        rcases lt_or_eq_of_le (le_trans h hkey) with h4 | h4
        · exact Or.inl h4
        · exact Or.inr ⟨h4, ha c (List.mem_cons_of_mem _ hc)⟩
    · rw [sortInsert, if_neg h]
      have hba : key b < key a := not_le.mp h
      refine List.Pairwise.cons ?_ (ih hl2 (fun c hc => ha c (List.mem_cons_of_mem _ hc)))
      intro c hc
      rcases (mem_sortInsert key a c l).mp hc with rfl | hc
      · exact Or.inl hba
      · exact hb c hc

theorem pairwise_sortBy {α : Type} (key : α → Int) (q : α → α → Prop) (l : List α)
    (hq : l.Pairwise q) :
    (sortBy key l).Pairwise (fun x y => key x < key y ∨ (key x = key y ∧ q x y)) := by
  induction l with
  | nil => simp [sortBy]
  | cons a l ih =>
    rcases List.pairwise_cons.mp hq with ⟨ha, hq2⟩
    rw [sortBy]
    exact pairwise_sortInsert key q a (sortBy key l) (ih hq2)
      (fun b hb => ha b ((mem_sortBy key b l).mp hb))

theorem pairwise_trivial {α : Type} (l : List α) : l.Pairwise (fun _ _ => True) := by
  induction l with
  | nil => exact List.Pairwise.nil
  | cons a l ih => exact List.Pairwise.cons (fun _ _ => trivial) ih

/-- Sorting by the key `0 - count` yields a list whose counts descend. -/
theorem sortBy_negCount_desc (l : List RankedNoteElement) :
    (sortBy negCount l).Pairwise (fun x y => y.count ≤ x.count) := by
  have h := pairwise_sortBy negCount (fun _ _ => True) l (pairwise_trivial l)
  refine h.imp ?_
  intro x y hxy
  rcases hxy with h1 | ⟨h1, _⟩
  · simp only [negCount] at h1
    omega
  · simp only [negCount] at h1
    omega

/-- Membership in a ranked path list: exactly the non-excluded entries of the
edge map, carrying their counts. -/
theorem mem_buildRanked (m : List NodeReference) (exclude : List Nat) (e : RankedNoteElement) :
    e ∈ buildRanked m exclude ↔
      e.note ∉ exclude ∧ ∃ r ∈ m, r.note = e.note ∧ r.count = e.count := by
  unfold buildRanked
  rw [mem_sortBy]
  simp only [List.mem_map, List.mem_filter]
  constructor
  · rintro ⟨r, ⟨hrm, hrx⟩, rfl⟩
    have hx : r.note ∉ exclude := by simpa using hrx
    exact ⟨hx, r, hrm, rfl, rfl⟩
  · rintro ⟨hx, r, hrm, h1, h2⟩
    refine ⟨r, ⟨hrm, ?_⟩, ?_⟩
    · simp [h1, hx]
    · cases e
      simp_all

/-- Claim C5: for every graph, note and exclusion list, both lists returned
by `getNotePaths` are sorted in descending order of count, and an entry
occurs in a list exactly when it is a non-excluded neighbor in the
corresponding edge map with its stored transition count. -/
theorem getNotePaths_ranked (g : RankedSequenceGraph) (note : Nat) (exclude : List Nat) :
    ((getNotePaths g note exclude).pathsIn.Pairwise (fun x y => y.count ≤ x.count)) ∧
    ((getNotePaths g note exclude).pathsOut.Pairwise (fun x y => y.count ≤ x.count)) ∧
    (∀ e, e ∈ (getNotePaths g note exclude).pathsIn ↔
        e.note ∉ exclude ∧ ∃ r ∈ nodePathsIn g note, r.note = e.note ∧ r.count = e.count) ∧
    (∀ e, e ∈ (getNotePaths g note exclude).pathsOut ↔
        e.note ∉ exclude ∧ ∃ r ∈ nodePathsOut g note, r.note = e.note ∧ r.count = e.count) := by
  unfold getNotePaths nodePathsIn nodePathsOut
  cases h : findNode g.map note with
  | none => simp
  | some n =>
    refine ⟨sortBy_negCount_desc _, sortBy_negCount_desc _, ?_, ?_⟩
    · intro e
      exact mem_buildRanked n.pathsIn exclude e
    · intro e
      exact mem_buildRanked n.pathsOut exclude e

theorem findNode_cons (n : Node) (m : List Node) (q : Nat) :
    findNode (n :: m) q = if n.note = q then some n else findNode m q := by
  by_cases h : n.note = q
  · simp [findNode, List.find?, h]
  · have hb : (n.note == q) = false := beq_eq_false_iff_ne.mpr h
    simp [findNode, List.find?, hb, h]

theorem findRef_cons (r : NodeReference) (m : List NodeReference) (q : Nat) :
    findRef (r :: m) q = if r.note = q then some r else findRef m q := by
  by_cases h : r.note = q
  · simp [findRef, List.find?, h]
  · have hb : (r.note == q) = false := beq_eq_false_iff_ne.mpr h
    simp [findRef, List.find?, hb, h]

theorem findNode_updateNode (m : List Node) (note q : Nat) (f : Node → Node)
    (hf : ∀ n, (f n).note = n.note) :
    findNode (updateNode m note f) q =
      if q = note then (findNode m note).map f else findNode m q := by
  induction m with
  | nil =>
    simp [updateNode, findNode]
  | cons n m ih =>
    rw [updateNode]
    by_cases hn : n.note = note
    · rw [if_pos (by simpa using hn)]
      by_cases hq : q = note
      · subst hq
        rw [if_pos rfl, findNode_cons, findNode_cons, if_pos hn, if_pos (by rw [hf]; exact hn)]
        rfl
      · rw [if_neg hq, findNode_cons, findNode_cons,
          if_neg (by rw [hf]; omega), if_neg (by omega)]
    · rw [if_neg (by simpa using hn), findNode_cons]
      by_cases hnq : n.note = q
      · rw [if_pos hnq, if_neg (by omega), findNode_cons, if_pos hnq]
      · rw [if_neg hnq, ih]
        by_cases hq : q = note
        · rw [if_pos hq, if_pos hq, findNode_cons, if_neg (by omega)]
        · rw [if_neg hq, if_neg hq, findNode_cons, if_neg hnq]

theorem findNode_insertNodeSorted (nd : Node) (m : List Node) (q : Nat)
    (habs : findNode m nd.note = none) :
    findNode (insertNodeSorted nd m) q = if nd.note = q then some nd else findNode m q := by
  induction m with
  | nil =>
    rw [insertNodeSorted, findNode_cons]
  | cons b m ih =>
    rw [findNode_cons] at habs
    by_cases hb : b.note = nd.note
    · rw [if_pos hb] at habs
      exact absurd habs (by simp)
    · rw [if_neg hb] at habs
      rw [insertNodeSorted]
      by_cases hlt : nd.note < b.note
      · rw [if_pos hlt, findNode_cons]
      · rw [if_neg hlt, findNode_cons, ih habs, findNode_cons]
        by_cases hbq : b.note = q
        · rw [if_pos hbq, if_neg (by omega), if_pos hbq]
        · rw [if_neg hbq, if_neg hbq]

theorem findNode_ensureNode (m : List Node) (note q : Nat) :
    findNode (ensureNode m note) q =
      if note = q then some ((findNode m note).getD (freshNode note)) else findNode m q := by
  cases h : findNode m note with
  | some n =>
    have he : ensureNode m note = m := by rw [ensureNode, h]
    rw [he]
    by_cases hq : note = q
    · subst hq
      rw [if_pos rfl]
      simp [h]
    · rw [if_neg hq]
  | none =>
    have he : ensureNode m note = insertNodeSorted (freshNode note) m := by rw [ensureNode, h]
    rw [he, findNode_insertNodeSorted (freshNode note) m q h]
    simp [freshNode]

theorem findRef_insertRefSorted (r : NodeReference) (m : List NodeReference) (q : Nat)
    (habs : findRef m r.note = none) :
    findRef (insertRefSorted r m) q = if r.note = q then some r else findRef m q := by
  induction m with
  | nil =>
    rw [insertRefSorted, findRef_cons]
  | cons b m ih =>
    rw [findRef_cons] at habs
    by_cases hb : b.note = r.note
    · rw [if_pos hb] at habs
      exact absurd habs (by simp)
    · rw [if_neg hb] at habs
      rw [insertRefSorted]
      by_cases hlt : r.note < b.note
      · rw [if_pos hlt, findRef_cons]
      · rw [if_neg hlt, findRef_cons, ih habs, findRef_cons]
        by_cases hbq : b.note = q
        · rw [if_pos hbq, if_neg (by omega), if_pos hbq]
        · rw [if_neg hbq, if_neg hbq]

theorem findRef_bumpFirst (m : List NodeReference) (p q : Nat) :
    findRef (bumpFirst m p) q =
      if q = p then (findRef m p).map (fun r => { r with count := r.count + 1 })
      else findRef m q := by
  induction m with
  | nil =>
    simp [bumpFirst, findRef]
  | cons r m ih =>
    rw [bumpFirst]
    by_cases hr : r.note = p
    · rw [if_pos (by simpa using hr)]
      by_cases hq : q = p
      · subst hq
        rw [if_pos rfl, findRef_cons, findRef_cons, if_pos hr, if_pos hr]
        rfl
      · rw [if_neg hq, findRef_cons, findRef_cons]
        rw [if_neg (by simp [hr]; omega), if_neg (by omega)]
    · rw [if_neg (by simpa using hr), findRef_cons]
      by_cases hrq : r.note = q
      · rw [if_pos hrq, if_neg (by omega), findRef_cons, if_pos hrq]
      · rw [if_neg hrq, ih]
        by_cases hq : q = p
        · rw [if_pos hq, if_pos hq, findRef_cons, if_neg (by omega)]
        · rw [if_neg hq, if_neg hq, findRef_cons, if_neg hrq]

/-- Effect of `bumpRef` on the counts visible through `findRef`: the bumped
key gains exactly one, every other key is untouched. -/
theorem findRef_bumpRef_map (m : List NodeReference) (p q : Nat) :
    (findRef (bumpRef m p) q).map (fun r => r.count) =
      if p = q then some (refCountD m p + 1)
      else (findRef m q).map (fun r => r.count) := by
  rw [bumpRef]
  cases h : findRef m p with
  | some r =>
    rw [findRef_bumpFirst]
    by_cases hq : q = p
    · subst hq
      rw [if_pos rfl, if_pos rfl, h, refCountD, h]
      rfl
    · rw [if_neg hq, if_neg (by omega)]
  | none =>
    rw [findRef_insertRefSorted _ _ _ (by simpa using h)]
    by_cases hq : p = q
    · subst hq
      rw [if_pos rfl, if_pos rfl, refCountD, h]
      rfl
    · rw [if_neg (by simpa using hq), if_neg hq]

theorem refCountD_eq (m : List NodeReference) (q : Nat) :
    refCountD m q = ((findRef m q).map (fun r => r.count)).getD 0 := by
  cases h : findRef m q <;> simp [refCountD, h]

theorem outCount_ensureNode (m : List Node) (note x y : Nat) :
    outCount (ensureNode m note) x y = outCount m x y := by
  simp only [outCount]
  rw [findNode_ensureNode]
  by_cases hx : note = x
  · rw [if_pos hx, ← hx]
    cases h : findNode m note with
    | none => simp [freshNode, findRef]
    | some n => simp
  · rw [if_neg hx]

theorem inCount_ensureNode (m : List Node) (note x y : Nat) :
    inCount (ensureNode m note) x y = inCount m x y := by
  simp only [inCount]
  rw [findNode_ensureNode]
  by_cases hx : note = x
  · rw [if_pos hx, ← hx]
    cases h : findNode m note with
    | none => simp [freshNode, findRef]
    | some n => simp
  · rw [if_neg hx]

theorem outCount_updateNode (m : List Node) (note x y : Nat) (f : Node → Node)
    (hf1 : ∀ n, (f n).note = n.note) (hf2 : ∀ n, (f n).pathsOut = n.pathsOut) :
    outCount (updateNode m note f) x y = outCount m x y := by
  simp only [outCount]
  rw [findNode_updateNode m note x f hf1]
  by_cases hx : x = note
  · rw [if_pos hx, hx]
    cases h : findNode m note with
    | none => simp
    | some n => simp [hf2]
  · rw [if_neg hx]

theorem inCount_updateNode (m : List Node) (note x y : Nat) (f : Node → Node)
    (hf1 : ∀ n, (f n).note = n.note) (hf2 : ∀ n, (f n).pathsIn = n.pathsIn) :
    inCount (updateNode m note f) x y = inCount m x y := by
  simp only [inCount]
  rw [findNode_updateNode m note x f hf1]
  by_cases hx : x = note
  · rw [if_pos hx, hx]
    cases h : findNode m note with
    | none => simp
    | some n => simp [hf2]
  · rw [if_neg hx]

theorem findNode_isSome_updateNode (m : List Node) (note q : Nat) (f : Node → Node)
    (hf : ∀ n, (f n).note = n.note) (h : findNode m q ≠ none) :
    findNode (updateNode m note f) q ≠ none := by
  rw [findNode_updateNode m note q f hf]
  by_cases hq : q = note
  · rw [if_pos hq, ← hq]
    cases hh : findNode m q
    · exact absurd hh h
    · simp
  · rw [if_neg hq]
    exact h

theorem findNode_isSome_ensureNode (m : List Node) (note q : Nat)
    (h : q = note ∨ findNode m q ≠ none) :
    findNode (ensureNode m note) q ≠ none := by
  rw [findNode_ensureNode]
  rcases h with rfl | h
  · rw [if_pos rfl]
    simp
  · by_cases hq : note = q
    · rw [if_pos hq]
      simp
    · rw [if_neg hq]
      exact h

theorem outCount_updateNode_bumpOut (m : List Node) (p c x y : Nat)
    (hp : findNode m p ≠ none) :
    outCount (updateNode m p (fun n => { n with pathsOut := bumpRef n.pathsOut c })) x y =
      if x = p ∧ y = c then some ((outCount m p c).getD 0 + 1) else outCount m x y := by
  obtain ⟨np, hnp⟩ : ∃ n, findNode m p = some n := by
    cases h : findNode m p
    · exact absurd h hp
    · exact ⟨_, rfl⟩
  have h2 := findNode_updateNode m p x (fun n => { n with pathsOut := bumpRef n.pathsOut c })
    (fun n => rfl)
  by_cases hx : x = p
  · rw [if_pos hx, hnp] at h2
    simp only [outCount, h2, Option.map_some', hnp]
    rw [findRef_bumpRef_map np.pathsOut c y]
    by_cases hy : y = c
    · rw [if_pos (by omega), if_pos ⟨hx, hy⟩, refCountD_eq]
    · rw [if_neg (by omega), if_neg (by tauto), hx]
      simp only [outCount, hnp]
  · rw [if_neg hx] at h2
    rw [if_neg (by tauto)]
    simp only [outCount, h2]

theorem inCount_updateNode_bumpIn (m : List Node) (q p x y : Nat)
    (hq : findNode m q ≠ none) :
    inCount (updateNode m q (fun n => { n with pathsIn := bumpRef n.pathsIn p })) x y =
      if x = q ∧ y = p then some ((inCount m q p).getD 0 + 1) else inCount m x y := by
  obtain ⟨nq, hnq⟩ : ∃ n, findNode m q = some n := by
    cases h : findNode m q
    · exact absurd h hq
    · exact ⟨_, rfl⟩
  have h2 := findNode_updateNode m q x (fun n => { n with pathsIn := bumpRef n.pathsIn p })
    (fun n => rfl)
  by_cases hx : x = q
  · rw [if_pos hx, hnq] at h2
    simp only [inCount, h2, Option.map_some', hnq]
    rw [findRef_bumpRef_map nq.pathsIn p y]
    by_cases hy : y = p
    · rw [if_pos (by omega), if_pos ⟨hx, hy⟩, refCountD_eq]
    · rw [if_neg (by omega), if_neg (by tauto), hx]
      simp only [inCount, hnq]
  · rw [if_neg hx] at h2
    rw [if_neg (by tauto)]
    simp only [inCount, h2]

theorem addEventStep_map_none (seq : MidiSequence) (g : RankedSequenceGraph) (index : Nat)
    (event : MidiIoEvent) :
    (addEventStep seq g index event none).map =
      updateNode (ensureNode g.map event.noteNumber) event.noteNumber
        (fun n => { n with count := n.count + 1, sequences := n.sequences ++ [(index, seq)] }) :=
  rfl

theorem addEventStep_map_some (seq : MidiSequence) (g : RankedSequenceGraph) (index : Nat)
    (event : MidiIoEvent) (p : Nat) :
    (addEventStep seq g index event (some p)).map =
      updateNode
        (updateNode
          (updateNode (ensureNode g.map event.noteNumber) event.noteNumber
            (fun n =>
              { n with count := n.count + 1, sequences := n.sequences ++ [(index, seq)] }))
          event.noteNumber (fun n => { n with pathsIn := bumpRef n.pathsIn p }))
        p (fun n => { n with pathsOut := bumpRef n.pathsOut event.noteNumber }) :=
  rfl

theorem addEventStep_insertSequence (seq : MidiSequence) (g : RankedSequenceGraph) (index : Nat)
    (event : MidiIoEvent) (prev : Option Nat) :
    (addEventStep seq g index event prev).insertSequence =
      g.insertSequence ++ [event.noteNumber] := by
  cases prev <;> rfl

theorem findNode_addEventStep_present (seq : MidiSequence) (g : RankedSequenceGraph)
    (index : Nat) (event : MidiIoEvent) (prev : Option Nat) (q : Nat)
    (h : q = event.noteNumber ∨ findNode g.map q ≠ none) :
    findNode (addEventStep seq g index event prev).map q ≠ none := by
  cases prev with
  | none =>
    rw [addEventStep_map_none]
    exact findNode_isSome_updateNode _ _ _ _ (fun n => rfl)
      (findNode_isSome_ensureNode _ _ _ h)
  | some p =>
    rw [addEventStep_map_some]
    exact findNode_isSome_updateNode _ _ _ _ (fun n => rfl)
      (findNode_isSome_updateNode _ _ _ _ (fun n => rfl)
        (findNode_isSome_updateNode _ _ _ _ (fun n => rfl)
          (findNode_isSome_ensureNode _ _ _ h)))

/-- The two paired `bumpRef` updates of `addEventStep` preserve edge-count
symmetry: both sides of the new transition gain exactly one. -/
theorem edgeSym_edgeBump (m : List Node) (note p : Nat)
    (hm : EdgeSymM m) (hp : findNode m p ≠ none) (hnote : findNode m note ≠ none) :
    EdgeSymM
      (updateNode (updateNode m note (fun n => { n with pathsIn := bumpRef n.pathsIn p }))
        p (fun n => { n with pathsOut := bumpRef n.pathsOut note })) := by
  intro x y
  have hpI : findNode (updateNode m note (fun n => { n with pathsIn := bumpRef n.pathsIn p }))
      p ≠ none :=
    findNode_isSome_updateNode _ _ _ _ (fun n => rfl) hp
  rw [outCount_updateNode_bumpOut _ p note x y hpI]
  rw [outCount_updateNode m note p note (fun n => { n with pathsIn := bumpRef n.pathsIn p })
    (fun n => rfl) (fun n => rfl)]
  rw [outCount_updateNode m note x y (fun n => { n with pathsIn := bumpRef n.pathsIn p })
    (fun n => rfl) (fun n => rfl)]
  rw [inCount_updateNode _ p y x (fun n => { n with pathsOut := bumpRef n.pathsOut note })
    (fun n => rfl) (fun n => rfl)]
  rw [inCount_updateNode_bumpIn m note p y x hnote]
  by_cases hc : x = p ∧ y = note
  · rw [if_pos hc, if_pos ⟨hc.2, hc.1⟩, hm p note]
  · rw [if_neg hc, if_neg (fun hh => hc ⟨hh.2, hh.1⟩), hm x y]

/-- One `_addEventIndex` iteration preserves edge-count symmetry, provided
the previous note (when present) already has a node. -/
theorem edgeSym_addEventStep (seq : MidiSequence) (g : RankedSequenceGraph) (index : Nat)
    (event : MidiIoEvent) (prev : Option Nat)
    (hg : EdgeSymM g.map)
    (hprev : ∀ p, prev = some p → findNode g.map p ≠ none) :
    EdgeSymM (addEventStep seq g index event prev).map := by
  have hm2 : EdgeSymM
      (updateNode (ensureNode g.map event.noteNumber) event.noteNumber
        (fun n => { n with count := n.count + 1, sequences := n.sequences ++ [(index, seq)] })) := by
    intro x y
    rw [outCount_updateNode _ _ x y
        (fun n => { n with count := n.count + 1, sequences := n.sequences ++ [(index, seq)] })
        (fun n => rfl) (fun n => rfl),
      inCount_updateNode _ _ y x
        (fun n => { n with count := n.count + 1, sequences := n.sequences ++ [(index, seq)] })
        (fun n => rfl) (fun n => rfl),
      outCount_ensureNode, inCount_ensureNode]
    exact hg x y
  cases prev with
  | none =>
    rw [addEventStep_map_none]
    exact hm2
  | some p =>
    rw [addEventStep_map_some]
    apply edgeSym_edgeBump _ _ _ hm2
    · exact findNode_isSome_updateNode _ _ _ _ (fun n => rfl)
        (findNode_isSome_ensureNode _ _ _ (Or.inr (hprev p rfl)))
    · exact findNode_isSome_updateNode _ _ _ _ (fun n => rfl)
        (findNode_isSome_ensureNode _ _ _ (Or.inl rfl))

theorem edgeSym_addEvents (seq : MidiSequence) (L : List (Nat × MidiIoEvent)) :
    ∀ (prev : Option Nat) (g : RankedSequenceGraph),
      EdgeSymM g.map → (∀ p, prev = some p → findNode g.map p ≠ none) →
      EdgeSymM (addEvents seq L prev g).map := by
  induction L with
  | nil =>
    intro prev g hg _
    exact hg
  | cons pe rest ih =>
    obtain ⟨index, event⟩ := pe
    intro prev g hg hprev
    rw [addEvents]
    apply ih
    · exact edgeSym_addEventStep seq g index event prev hg hprev
    · intro p hp
      cases hp
      exact findNode_addEventStep_present seq g index event prev _ (Or.inl rfl)

theorem edgeSym_addSequence (g : RankedSequenceGraph) (s : MidiSequence)
    (hg : EdgeSymM g.map) : EdgeSymM (addSequence g s).map := by
  rw [addSequence]
  exact edgeSym_addEvents _ _ none g hg (fun p hp => by cases hp)

theorem edgeSym_buildGraph (seqs : List MidiSequence) : EdgeSymM (buildGraph seqs).map := by
  rw [buildGraph]
  have h : ∀ g : RankedSequenceGraph, EdgeSymM g.map →
      EdgeSymM (seqs.foldl addSequence g).map := by
    induction seqs with
    | nil => intro g hg; exact hg
    | cons s rest ih =>
      intro g hg
      rw [List.foldl_cons]
      exact ih _ (edgeSym_addSequence g s hg)
  apply h
  intro x y
  rfl

/-- Claim C1: after any finite series of `addSequence` calls starting from
the empty graph, the outgoing edge count stored at node `x` for successor `y`
equals the incoming edge count stored at node `y` for predecessor `x`; the
equality is stated on optional counts, so it also asserts that the two edge
records exist (or are absent) together. -/
theorem edge_counts_symmetric (seqs : List MidiSequence) (x y : Nat) :
    outCount (buildGraph seqs).map x y = inCount (buildGraph seqs).map y x :=
  edgeSym_buildGraph seqs x y

theorem sumCounts_insertNodeSorted (nd : Node) (m : List Node) :
    sumCounts (insertNodeSorted nd m) = nd.count + sumCounts m := by
  induction m with
  | nil => simp [insertNodeSorted, sumCounts]
  | cons b l ih =>
    rw [insertNodeSorted]
    by_cases h : nd.note < b.note
    · rw [if_pos h]
      simp [sumCounts]
    · rw [if_neg h]
      simp only [sumCounts, List.map_cons, List.sum_cons] at ih ⊢
      omega

theorem sumCounts_ensureNode (m : List Node) (note : Nat) :
    sumCounts (ensureNode m note) = sumCounts m := by
  cases h : findNode m note with
  | some n =>
    have he : ensureNode m note = m := by rw [ensureNode, h]
    rw [he]
  | none =>
    have he : ensureNode m note = insertNodeSorted (freshNode note) m := by rw [ensureNode, h]
    rw [he, sumCounts_insertNodeSorted]
    simp [freshNode]

theorem sumCounts_updateNode_bump (m : List Node) (note : Nat) (f : Node → Node)
    (hf : ∀ n, (f n).count = n.count + 1) (hm : findNode m note ≠ none) :
    sumCounts (updateNode m note f) = sumCounts m + 1 := by
  induction m with
  | nil => exact absurd rfl hm
  | cons n m ih =>
    rw [updateNode]
    by_cases h : n.note = note
    · rw [if_pos (by simpa using h)]
      simp only [sumCounts, List.map_cons, List.sum_cons, hf]
      omega
    · rw [if_neg (by simpa using h)]
      have hm2 : findNode m note ≠ none := by
        rw [findNode_cons, if_neg h] at hm
        exact hm
      have h2 := ih hm2
      simp only [sumCounts, List.map_cons, List.sum_cons] at h2 ⊢
      omega

theorem sumCounts_updateNode_const (m : List Node) (note : Nat) (f : Node → Node)
    (hf : ∀ n, (f n).count = n.count) :
    sumCounts (updateNode m note f) = sumCounts m := by
  induction m with
  | nil => rfl
  | cons n m ih =>
    rw [updateNode]
    by_cases h : n.note = note
    · rw [if_pos (by simpa using h)]
      simp only [sumCounts, List.map_cons, List.sum_cons, hf]
    · rw [if_neg (by simpa using h)]
      simp only [sumCounts, List.map_cons, List.sum_cons] at ih ⊢
      omega

theorem sumCounts_addEventStep (seq : MidiSequence) (g : RankedSequenceGraph) (index : Nat)
    (event : MidiIoEvent) (prev : Option Nat) :
    sumCounts (addEventStep seq g index event prev).map = sumCounts g.map + 1 := by
  cases prev with
  | none =>
    rw [addEventStep_map_none,
      sumCounts_updateNode_bump _ event.noteNumber
        (fun n => { n with count := n.count + 1, sequences := n.sequences ++ [(index, seq)] })
        (fun n => rfl) (findNode_isSome_ensureNode _ _ _ (Or.inl rfl)),
      sumCounts_ensureNode]
  | some p =>
    rw [addEventStep_map_some,
      sumCounts_updateNode_const _ p
        (fun n => { n with pathsOut := bumpRef n.pathsOut event.noteNumber }) (fun n => rfl),
      sumCounts_updateNode_const _ event.noteNumber
        (fun n => { n with pathsIn := bumpRef n.pathsIn p }) (fun n => rfl),
      sumCounts_updateNode_bump _ event.noteNumber
        (fun n => { n with count := n.count + 1, sequences := n.sequences ++ [(index, seq)] })
        (fun n => rfl) (findNode_isSome_ensureNode _ _ _ (Or.inl rfl)),
      sumCounts_ensureNode]

theorem sumCounts_addEvents (seq : MidiSequence) (L : List (Nat × MidiIoEvent)) :
    ∀ (prev : Option Nat) (g : RankedSequenceGraph),
      sumCounts (addEvents seq L prev g).map = sumCounts g.map + L.length := by
  induction L with
  | nil =>
    intro prev g
    rfl
  | cons pe rest ih =>
    obtain ⟨index, event⟩ := pe
    intro prev g
    rw [addEvents, ih, sumCounts_addEventStep, List.length_cons]
    omega

theorem addEvents_insertSequence (seq : MidiSequence) (L : List (Nat × MidiIoEvent)) :
    ∀ (prev : Option Nat) (g : RankedSequenceGraph),
      (addEvents seq L prev g).insertSequence =
        g.insertSequence ++ L.map (fun p => p.2.noteNumber) := by
  induction L with
  | nil =>
    intro prev g
    simp [addEvents]
  | cons pe rest ih =>
    obtain ⟨index, event⟩ := pe
    intro prev g
    rw [addEvents, ih, addEventStep_insertSequence]
    simp

theorem sumCounts_addSequence (g : RankedSequenceGraph) (s : MidiSequence) :
    sumCounts (addSequence g s).map = sumCounts g.map + (s.events.filter isNoteOn).length := by
  have h := sumCounts_addEvents (filteredSequence s) (filteredSequence s).events.enum none g
  rw [addSequence, h]
  simp [filteredSequence]

theorem insertSequence_addSequence (g : RankedSequenceGraph) (s : MidiSequence) :
    (addSequence g s).insertSequence.length =
      g.insertSequence.length + (s.events.filter isNoteOn).length := by
  have h := addEvents_insertSequence (filteredSequence s) (filteredSequence s).events.enum none g
  rw [addSequence, h]
  simp [filteredSequence]

theorem sumCounts_foldl (seqs : List MidiSequence) :
    ∀ g : RankedSequenceGraph,
      sumCounts (seqs.foldl addSequence g).map =
        sumCounts g.map + (seqs.map (fun s => (s.events.filter isNoteOn).length)).sum := by
  induction seqs with
  | nil =>
    intro g
    simp
  | cons s rest ih =>
    intro g
    rw [List.foldl_cons, ih, sumCounts_addSequence]
    simp only [List.map_cons, List.sum_cons]
    omega

theorem insertSequence_foldl (seqs : List MidiSequence) :
    ∀ g : RankedSequenceGraph,
      (seqs.foldl addSequence g).insertSequence.length =
        g.insertSequence.length +
          (seqs.map (fun s => (s.events.filter isNoteOn).length)).sum := by
  induction seqs with
  | nil =>
    intro g
    simp
  | cons s rest ih =>
    intro g
    rw [List.foldl_cons, ih, insertSequence_addSequence]
    simp only [List.map_cons, List.sum_cons]
    omega

/-- The counts reported by `getAllNotes` sum to the total count stored in the
node map (the ranking sort is a permutation). -/
theorem getAllNotes_counts_sum (g : RankedSequenceGraph) :
    ((getAllNotes g).map (fun e => e.count)).sum = sumCounts g.map := by
  rw [getAllNotes]
  have hp := sortBy_perm negCount
    (g.map.map (fun n => ({ count := n.count, note := n.note } : RankedNoteElement)))
  rw [(hp.map (fun e => e.count)).sum_eq]
  rw [sumCounts, List.map_map]
  rfl

/-- Claim C8: after any series of `addSequence` calls from the empty graph,
the counts of `getAllNotes` sum to the length of `getInsertSequence`, and
both equal the total number of note-onset events ingested. -/
theorem conservation_counts (seqs : List MidiSequence) :
    ((getAllNotes (buildGraph seqs)).map (fun e => e.count)).sum =
      (getInsertSequence (buildGraph seqs)).length ∧
    (getInsertSequence (buildGraph seqs)).length =
      (seqs.map (fun s => (s.events.filter isNoteOn).length)).sum := by
  rw [getAllNotes_counts_sum, getInsertSequence, buildGraph,
    sumCounts_foldl seqs RankedSequenceGraph.empty,
    insertSequence_foldl seqs RankedSequenceGraph.empty]
  constructor
  · rfl
  · simp [RankedSequenceGraph.empty]

theorem mem_insertNodeSorted (nd x : Node) (m : List Node) :
    x ∈ insertNodeSorted nd m ↔ x = nd ∨ x ∈ m := by
  induction m with
  | nil => simp [insertNodeSorted]
  | cons b l ih =>
    rw [insertNodeSorted]
    by_cases h : nd.note < b.note
    · rw [if_pos h]
      simp
    · rw [if_neg h]
      simp [ih]
      tauto

theorem notes_updateNode (m : List Node) (note : Nat) (f : Node → Node)
    (hf : ∀ n, (f n).note = n.note) :
    (updateNode m note f).map (fun n => n.note) = m.map (fun n => n.note) := by
  induction m with
  | nil => rfl
  | cons n m ih =>
    rw [updateNode]
    by_cases h : n.note = note
    · rw [if_pos (by simpa using h)]
      simp [hf]
    · rw [if_neg (by simpa using h)]
      simp [ih]

theorem notesSorted_updateNode (m : List Node) (note : Nat) (f : Node → Node)
    (hf : ∀ n, (f n).note = n.note) (hm : NotesSorted m) :
    NotesSorted (updateNode m note f) := by
  have h1 : ((updateNode m note f).map (fun n => n.note)).Pairwise (fun a b => a < b) := by
    rw [notes_updateNode m note f hf]
    exact List.pairwise_map.mpr hm
  exact List.pairwise_map.mp h1

theorem notesSorted_insertNodeSorted (nd : Node) (m : List Node) (hm : NotesSorted m)
    (habs : findNode m nd.note = none) : NotesSorted (insertNodeSorted nd m) := by
  induction m with
  | nil => simp [insertNodeSorted, NotesSorted]
  | cons b l ih =>
    rw [findNode_cons] at habs
    by_cases hb : b.note = nd.note
    · rw [if_pos hb] at habs
      exact absurd habs (by simp)
    · rw [if_neg hb] at habs
      rcases List.pairwise_cons.mp hm with ⟨hbl, hl⟩
      rw [insertNodeSorted]
      by_cases hlt : nd.note < b.note
      · rw [if_pos hlt]
        refine List.Pairwise.cons ?_ hm
        intro c hc
        rcases List.mem_cons.mp hc with rfl | hc
        · exact hlt
        · exact lt_trans hlt (hbl c hc)
      · rw [if_neg hlt]
        refine List.Pairwise.cons ?_ (ih hl habs)
        intro c hc
        rcases (mem_insertNodeSorted nd c l).mp hc with rfl | hc
        · omega
        · exact hbl c hc

theorem notesSorted_ensureNode (m : List Node) (note : Nat) (hm : NotesSorted m) :
    NotesSorted (ensureNode m note) := by
  cases h : findNode m note with
  | some n =>
    have he : ensureNode m note = m := by rw [ensureNode, h]
    rw [he]
    exact hm
  | none =>
    have he : ensureNode m note = insertNodeSorted (freshNode note) m := by rw [ensureNode, h]
    rw [he]
    exact notesSorted_insertNodeSorted (freshNode note) m hm h

theorem notesSorted_addEventStep (seq : MidiSequence) (g : RankedSequenceGraph) (index : Nat)
    (event : MidiIoEvent) (prev : Option Nat) (hm : NotesSorted g.map) :
    NotesSorted (addEventStep seq g index event prev).map := by
  cases prev with
  | none =>
    rw [addEventStep_map_none]
    exact notesSorted_updateNode _ _
      (fun n => { n with count := n.count + 1, sequences := n.sequences ++ [(index, seq)] })
      (fun n => rfl) (notesSorted_ensureNode _ _ hm)
  | some p =>
    rw [addEventStep_map_some]
    exact notesSorted_updateNode _ _
      (fun n => { n with pathsOut := bumpRef n.pathsOut event.noteNumber }) (fun n => rfl)
      (notesSorted_updateNode _ _ (fun n => { n with pathsIn := bumpRef n.pathsIn p })
        (fun n => rfl)
        (notesSorted_updateNode _ _
          (fun n => { n with count := n.count + 1, sequences := n.sequences ++ [(index, seq)] })
          (fun n => rfl) (notesSorted_ensureNode _ _ hm)))

theorem notesSorted_addEvents (seq : MidiSequence) (L : List (Nat × MidiIoEvent)) :
    ∀ (prev : Option Nat) (g : RankedSequenceGraph),
      NotesSorted g.map → NotesSorted (addEvents seq L prev g).map := by
  induction L with
  | nil =>
    intro prev g hm
    exact hm
  | cons pe rest ih =>
    obtain ⟨index, event⟩ := pe
    intro prev g hm
    rw [addEvents]
    exact ih _ _ (notesSorted_addEventStep seq g index event prev hm)

theorem notesSorted_buildGraph (seqs : List MidiSequence) :
    NotesSorted (buildGraph seqs).map := by
  rw [buildGraph]
  have h : ∀ g : RankedSequenceGraph, NotesSorted g.map →
      NotesSorted (seqs.foldl addSequence g).map := by
    induction seqs with
    | nil =>
      intro g hg
      exact hg
    | cons s rest ih =>
      intro g hg
      rw [List.foldl_cons]
      refine ih _ ?_
      rw [addSequence]
      exact notesSorted_addEvents _ _ none g hg
  apply h
  exact List.Pairwise.nil

/-- Claim C9: `getAllNotes` enumerates the node map in ascending note order
and sorts it stably by descending count, so consecutive entries either
strictly descend in count or tie in count with strictly ascending note
numbers; such an ordering is uniquely determined by the (note, count) pairs,
independent of the order in which equal-count notes were inserted. -/
theorem getAllNotes_order (seqs : List MidiSequence) :
    (getAllNotes (buildGraph seqs)).Pairwise
      (fun a b => b.count < a.count ∨ (a.count = b.count ∧ a.note < b.note)) := by
  have hs : NotesSorted (buildGraph seqs).map := notesSorted_buildGraph seqs
  rw [getAllNotes]
  have hq : ((buildGraph seqs).map.map
      (fun n => ({ count := n.count, note := n.note } : RankedNoteElement))).Pairwise
      (fun a b => a.note < b.note) := by
    rw [List.pairwise_map]
    exact hs
  have h := pairwise_sortBy negCount (fun a b => a.note < b.note) _ hq
  refine h.imp ?_
  intro a b hab
  rcases hab with h1 | ⟨h1, h2⟩
  · left
    simp only [negCount] at h1
    omega
  · right
    refine ⟨?_, h2⟩
    simp only [negCount] at h1
    omega

theorem nodeSequencesAt_ensureNode (m : List Node) (note q : Nat) :
    nodeSequencesAt (ensureNode m note) q = nodeSequencesAt m q := by
  simp only [nodeSequencesAt]
  rw [findNode_ensureNode]
  by_cases h : note = q
  · rw [if_pos h, ← h]
    cases hh : findNode m note with
    | none => simp [freshNode]
    | some n => simp
  · rw [if_neg h]

theorem nodeSequencesAt_updateNode_const (m : List Node) (note q : Nat) (f : Node → Node)
    (hf1 : ∀ n, (f n).note = n.note) (hf2 : ∀ n, (f n).sequences = n.sequences) :
    nodeSequencesAt (updateNode m note f) q = nodeSequencesAt m q := by
  simp only [nodeSequencesAt]
  rw [findNode_updateNode m note q f hf1]
  by_cases hq : q = note
  · rw [if_pos hq, hq]
    cases h : findNode m note with
    | none => simp
    | some n => simp [hf2]
  · rw [if_neg hq]

theorem nodeSequencesAt_updateNode_append (m : List Node) (note q : Nat) (index : Nat)
    (seq : MidiSequence) (hm : findNode m note ≠ none) :
    nodeSequencesAt (updateNode m note
        (fun n => { n with count := n.count + 1, sequences := n.sequences ++ [(index, seq)] }))
        q =
      if q = note then nodeSequencesAt m q ++ [(index, seq)] else nodeSequencesAt m q := by
  have h2 := findNode_updateNode m note q
    (fun n => { n with count := n.count + 1, sequences := n.sequences ++ [(index, seq)] })
    (fun n => rfl)
  by_cases hq : q = note
  · obtain ⟨n, hn⟩ : ∃ n, findNode m note = some n := by
      cases h : findNode m note
      · exact absurd h hm
      · exact ⟨_, rfl⟩
    rw [if_pos hq, hn] at h2
    rw [hq] at h2
    rw [if_pos hq, hq]
    simp only [nodeSequencesAt, h2, Option.map_some', hn]
  · rw [if_neg hq] at h2
    rw [if_neg hq]
    simp only [nodeSequencesAt, h2]

theorem nodeSequencesAt_addEventStep (seq : MidiSequence) (g : RankedSequenceGraph)
    (index : Nat) (event : MidiIoEvent) (prev : Option Nat) (q : Nat) :
    nodeSequencesAt (addEventStep seq g index event prev).map q =
      if q = event.noteNumber then nodeSequencesAt g.map q ++ [(index, seq)]
      else nodeSequencesAt g.map q := by
  have hkey :
      nodeSequencesAt (updateNode (ensureNode g.map event.noteNumber) event.noteNumber
        (fun n => { n with count := n.count + 1, sequences := n.sequences ++ [(index, seq)] }))
        q =
      if q = event.noteNumber then nodeSequencesAt g.map q ++ [(index, seq)]
      else nodeSequencesAt g.map q := by
    rw [nodeSequencesAt_updateNode_append _ _ _ _ _
      (findNode_isSome_ensureNode _ _ _ (Or.inl rfl))]
    rw [nodeSequencesAt_ensureNode]
  cases prev with
  | none =>
    rw [addEventStep_map_none, hkey]
  | some p =>
    rw [addEventStep_map_some,
      nodeSequencesAt_updateNode_const _ p q
        (fun n => { n with pathsOut := bumpRef n.pathsOut event.noteNumber })
        (fun n => rfl) (fun n => rfl),
      nodeSequencesAt_updateNode_const _ event.noteNumber q
        (fun n => { n with pathsIn := bumpRef n.pathsIn p }) (fun n => rfl) (fun n => rfl),
      hkey]

theorem nodeSequencesAt_addEvents (seq : MidiSequence) (L : List (Nat × MidiIoEvent)) :
    ∀ (prev : Option Nat) (g : RankedSequenceGraph) (q : Nat),
      nodeSequencesAt (addEvents seq L prev g).map q =
        nodeSequencesAt g.map q ++
          (L.filter (fun p => p.2.noteNumber == q)).map (fun p => (p.1, seq)) := by
  induction L with
  | nil =>
    intro prev g q
    simp [addEvents]
  | cons pe rest ih =>
    obtain ⟨index, event⟩ := pe
    intro prev g q
    rw [addEvents, ih, nodeSequencesAt_addEventStep]
    by_cases hq : q = event.noteNumber
    · rw [if_pos hq]
      have hkeep : (event.noteNumber == q) = true := by simp [hq]
      simp [List.filter_cons, hkeep]
    · rw [if_neg hq]
      have hdrop : (event.noteNumber == q) = false := beq_eq_false_iff_ne.mpr (by omega)
      simp [List.filter_cons, hdrop]

theorem nodeSequencesAt_addSequence (g : RankedSequenceGraph) (s : MidiSequence) (q : Nat) :
    nodeSequencesAt (addSequence g s).map q = nodeSequencesAt g.map q ++ seqOccurrences s q := by
  have h := nodeSequencesAt_addEvents (filteredSequence s) (filteredSequence s).events.enum
    none g q
  exact h

theorem nodeSequencesAt_buildGraph (seqs : List MidiSequence) (q : Nat) :
    nodeSequencesAt (buildGraph seqs).map q = noteOccurrences seqs q := by
  rw [buildGraph]
  have h : ∀ g : RankedSequenceGraph,
      nodeSequencesAt (seqs.foldl addSequence g).map q =
        nodeSequencesAt g.map q ++ noteOccurrences seqs q := by
    induction seqs with
    | nil =>
      intro g
      simp [noteOccurrences]
    | cons s rest ih =>
      intro g
      rw [List.foldl_cons, ih, nodeSequencesAt_addSequence]
      simp [noteOccurrences, List.append_assoc]
  have h2 := h RankedSequenceGraph.empty
  simpa [nodeSequencesAt, findNode, RankedSequenceGraph.empty] using h2

/-- The result of `getSequencesForNote` is the occurrence list mapped through the choice of
full or truncated view. -/
theorem getSequencesForNote_eq (g : RankedSequenceGraph) (note : Nat) (b : Bool) :
    getSequencesForNote g note b =
      (nodeSequencesAt g.map note).map (fun p => if b = false then p.2 else partialView p) := by
  simp only [getSequencesForNote, nodeSequencesAt]
  cases findNode g.map note <;> simp

theorem map_const_eq_replicate {α β : Type} (l : List α) (b : β) :
    l.map (fun _ => b) = List.replicate l.length b := by
  induction l with
  | nil => rfl
  | cons a l ih => simp [List.replicate, ih]

theorem length_filter_enumFrom (l : List MidiIoEvent) (note : Nat) :
    ∀ k, ((List.enumFrom k l).filter (fun p => p.2.noteNumber == note)).length =
      (l.filter (fun e => e.noteNumber == note)).length := by
  induction l with
  | nil =>
    intro k
    rfl
  | cons e l ih =>
    intro k
    rw [List.enumFrom_cons]
    by_cases h : e.noteNumber = note
    · simp [List.filter_cons, h, ih]
    · simp [List.filter_cons, h, ih]

/-- The node map of `twoCycleGraph` holds exactly the two-cycle 60↔62. -/
theorem twoCycleGraph_map_eq :
    twoCycleGraph.map =
      [{ count := 2, note := 60, pathsIn := [{ count := 1, note := 62 }],
         pathsOut := [{ count := 1, note := 62 }],
         sequences := [(0, filteredSequence twoCycleSeq), (2, filteredSequence twoCycleSeq)] },
       { count := 1, note := 62, pathsIn := [{ count := 1, note := 60 }],
         pathsOut := [{ count := 1, note := 60 }],
         sequences := [(1, filteredSequence twoCycleSeq)] }] := by
  decide

/-- Claim C4: on the graph holding exactly the two-cycle 60↔62, `traverse`
with `DisallowReuse`, `maxCount = 5` and a policy that always takes the
top-ranked neighbor visits each of 60 and 62 exactly once and stops early,
while adding `ResetAfterExhaust` makes it cycle 60, 62, 60, 62, 60 until the
full `maxCount = 5` notes are produced. -/
theorem traverse_twoCycle_scenarios :
    traverse twoCycleGraph TraverseAttributes.DisallowReuse 5 nextTopRanked 60 = [60, 62] ∧
    traverse twoCycleGraph
        (TraverseAttributes.DisallowReuse ||| TraverseAttributes.ResetAfterExhaust) 5
        nextTopRanked 60 = [60, 62, 60, 62, 60] := by
  decide

/-- Claim C6: `getNotePaths` on a note with no node in the graph returns two
empty path lists, for every exclusion list; being a total function it raises
no error. -/
theorem getNotePaths_unknown_note (g : RankedSequenceGraph) (note : Nat) (exclude : List Nat)
    (h : findNode g.map note = none) :
    getNotePaths g note exclude = { pathsIn := [], pathsOut := [] } := by
  simp [getNotePaths, h]

/-- Witness for `getNotePaths_unknown_note` at the empty graph. -/
theorem getNotePaths_unknown_note_witness :
    findNode RankedSequenceGraph.empty.map 60 = none ∧
    getNotePaths RankedSequenceGraph.empty 60 [61] = { pathsIn := [], pathsOut := [] } :=
  ⟨rfl, getNotePaths_unknown_note RankedSequenceGraph.empty 60 [61] rfl⟩

/-- Claim C7: when `startNote` has no node in the graph, `traverse` returns
the empty list for every graph state, attribute set, bound and selection
policy; in particular the start note is not emitted and the result does not
depend on the policy. -/
theorem traverse_unknown_start (g : RankedSequenceGraph) (attributes maxCount : Nat)
    (next : TraverseStepParam → Option RankedNoteElement) (startNote : Nat)
    (h : findNode g.map startNote = none) :
    traverse g attributes maxCount next startNote = [] := by
  unfold traverse
  rw [h]
  cases maxCount <;> rfl

/-- Witness for `traverse_unknown_start` at the empty graph. -/
theorem traverse_unknown_start_witness :
    findNode RankedSequenceGraph.empty.map 60 = none ∧
    traverse RankedSequenceGraph.empty 0 3 nextNone 60 = [] :=
  ⟨rfl, traverse_unknown_start RankedSequenceGraph.empty 0 3 nextNone 60 rfl⟩

/-- Claim C10: `traverse` with `maxCount = 0` returns the empty list for
every graph state, attribute set, policy and start note, even when the start
note exists in the graph. -/
theorem traverse_maxCount_zero (g : RankedSequenceGraph) (attributes : Nat)
    (next : TraverseStepParam → Option RankedNoteElement) (startNote : Nat) :
    traverse g attributes 0 next startNote = [] := by
  unfold traverse
  cases (findNode g.map startNote).map (fun n => n.note) <;> rfl

/-- Counterexample to claim C2: `mixedSeq` contributes exactly one occurrence
of note 60, yet `getSequencesForNote` with `partial = false` does not return
the sequence that was passed to `addSequence`: the stored copy lost the
note-off event during ingestion filtering. -/
theorem getSequencesForNote_full_counterexample :
    (findNode mixedGraph.map 60).map (fun n => n.sequences) =
      some [(0, filteredSequence mixedSeq)] ∧
    getSequencesForNote mixedGraph 60 false = [{ duration := 10, events := [onEvent 60 0] }] ∧
    getSequencesForNote mixedGraph 60 false ≠ [mixedSeq] := by
  decide

/-- Counterexample to claim C3: note 60's first recorded occurrence in
`mixedSeq` is at event index 0, yet no result of `getSequencesForNote` with
`partial = true` has an event list identical to the original sequence: the
stored copy lost the note-off event during ingestion filtering. -/
theorem roundTrip_counterexample :
    (findNode mixedGraph.map 60).map (fun n => n.sequences) =
      some [(0, filteredSequence mixedSeq)] ∧
    getSequencesForNote mixedGraph 60 true = [{ duration := 10, events := [onEvent 60 0] }] ∧
    ¬ ∃ r ∈ getSequencesForNote mixedGraph 60 true,
        r.duration = mixedSeq.duration ∧ r.events = mixedSeq.events := by
  decide

/-- Claim C2 (amended): for every note, `getSequencesForNote` with
`partial = false` returns one entry per recorded occurrence of the note
(even when several occurrences come from the same sequence), and each entry
is the stored copy of its source sequence: the sequence passed to
`addSequence` with its events filtered to note-on events and its duration
unchanged — not the caller's sequence with all of its original events. -/
theorem getSequencesForNote_full (seqs : List MidiSequence) (note : Nat) :
    getSequencesForNote (buildGraph seqs) note false =
      (seqs.map (fun s =>
        List.replicate
          (((filteredSequence s).events.filter (fun e => e.noteNumber == note)).length)
          (filteredSequence s))).flatten := by
  rw [getSequencesForNote_eq, nodeSequencesAt_buildGraph, noteOccurrences, List.map_flatten]
  congr 1
  rw [List.map_map]
  congr 1
  funext s
  rw [Function.comp, seqOccurrences, List.map_map]
  have hcomp : ((fun p : Nat × MidiSequence => if false = false then p.2 else partialView p) ∘
      (fun p : Nat × MidiIoEvent => (p.1, filteredSequence s))) =
      (fun p : Nat × MidiIoEvent => filteredSequence s) := by
    funext p
    simp
  rw [hcomp, map_const_eq_replicate]
  congr 1
  rw [List.enum_eq_enumFrom]
  exact length_filter_enumFrom (filteredSequence s).events note 0

/-- Claim C3 (amended): for every sequence `S` passed to `addSequence` whose
filtered (note-on) event list starts with the queried note — the note's
occurrence is recorded at event index 0 — `getSequencesForNote` with
`partial = true` contains a result whose duration equals `S.duration` and
whose event list equals the note-on events of `S` (the entire stored copy;
non-note-on events of `S` were dropped at ingestion). -/
theorem getSequencesForNote_roundTrip (seqs : List MidiSequence) (s : MidiSequence) (note : Nat)
    (hs : s ∈ seqs)
    (h0 : ∃ e, (filteredSequence s).events.head? = some e ∧ e.noteNumber = note) :
    ∃ r ∈ getSequencesForNote (buildGraph seqs) note true,
      r.duration = s.duration ∧ r.events = (filteredSequence s).events := by
  obtain ⟨e, he, hen⟩ := h0
  obtain ⟨rest, hrest⟩ : ∃ rest, (filteredSequence s).events = e :: rest := by
    cases hev : (filteredSequence s).events with
    | nil =>
      rw [hev] at he
      cases he
    | cons a t =>
      rw [hev, List.head?_cons] at he
      cases he
      exact ⟨t, rfl⟩
  have hocc : (0, filteredSequence s) ∈ noteOccurrences seqs note := by
    rw [noteOccurrences]
    refine List.mem_flatten.mpr ⟨seqOccurrences s note, List.mem_map_of_mem _ hs, ?_⟩
    rw [seqOccurrences]
    refine List.mem_map.mpr ⟨(0, e), ?_, rfl⟩
    refine List.mem_filter.mpr ⟨?_, by simp [hen]⟩
    rw [hrest, List.enum_eq_enumFrom, List.enumFrom_cons]
    exact List.mem_cons_self _ _
  rw [getSequencesForNote_eq, nodeSequencesAt_buildGraph]
  refine ⟨partialView (0, filteredSequence s),
    List.mem_map.mpr ⟨(0, filteredSequence s), hocc, by simp⟩, ?_, ?_⟩
  · simp [partialView, filteredSequence]
  · simp [partialView]

/-- Witness for `getSequencesForNote_roundTrip` on a one-event sequence. -/
theorem getSequencesForNote_roundTrip_witness :
    singleOnSeq ∈ [singleOnSeq] ∧
    (∃ e, (filteredSequence singleOnSeq).events.head? = some e ∧ e.noteNumber = 60) ∧
    ∃ r ∈ getSequencesForNote (buildGraph [singleOnSeq]) 60 true,
      r.duration = singleOnSeq.duration ∧ r.events = (filteredSequence singleOnSeq).events :=
  ⟨List.mem_singleton.mpr rfl, ⟨onEvent 60 0, rfl, rfl⟩,
    getSequencesForNote_roundTrip [singleOnSeq] singleOnSeq 60 (List.mem_singleton.mpr rfl)
      ⟨onEvent 60 0, rfl, rfl⟩⟩

end PigPen
